import Mathlib

/-!
Verification of the openbook repository's core algorithms against its
specification: the document segmenter (`src/commands/indexDocuments.ts`),
the embedding-keyed retrieval store (`src/retrieval/store.ts`, whose
`searchChunks`/`cosineSimilarity` also appear as `loadTopChunks`/
`cosineSimilarity` in `src/commands/query.ts`), and the provider dispatch
(`dispatchToProvider` in `src/commands/query.ts`, with the provider catalog
from `src/models/provider.ts`).

Strings are modelled as lists of characters (`Str`); JavaScript string
`.length`, `.trim()`, `.slice()`, `Array.prototype.join(" ")` become the
corresponding list operations.  JavaScript numbers in the retrieval store
are modelled by `JsVal`: an exact real for finite doubles plus the IEEE
special values `Infinity`, `-Infinity` and `NaN` (finite-precision rounding
and overflow of finite operations are idealized away; the special-value
propagation rules follow IEEE-754 / JavaScript semantics).

While-loops are translated to fuel-indexed structural recursions; in each
case the fuel supplied at the call site dominates the number of iterations
the source loop can make, so the translation computes the same list of
results wherever the source loop terminates.
-/

abbrev Str := List Char

/-- JavaScript whitespace as used by `String.prototype.trim` and `\s`
(restricted to the ASCII whitespace characters that can occur here). -/
def isWs (c : Char) : Bool :=
  c = ' ' ∨ c = '\t' ∨ c = '\n' ∨ c = '\r' ∨ c = '\x0b' ∨ c = '\x0c'

/-- JavaScript `String.prototype.trim`: drop whitespace from both ends. -/
def trimStr (s : Str) : Str :=
  ((s.dropWhile isWs).reverse.dropWhile isWs).reverse

/-- JavaScript `String.prototype.trimEnd`: drop whitespace from the right end only. -/
def trimEndStr (s : Str) : Str :=
  (s.reverse.dropWhile isWs).reverse

/-- JavaScript `text.slice(start, stop)` for `0 ≤ start ≤ stop`. -/
def sliceStr (s : Str) (start stop : Nat) : Str :=
  (s.drop start).take (stop - start)

/-- The step `value.replace(/\r\n/g, "\n")`. -/
def replaceCRLF : Str → Str
  | [] => []
  | '\r' :: '\n' :: rest => '\n' :: replaceCRLF rest
  | c :: rest => c :: replaceCRLF rest

/-- The step `value.replace(/\t/g, " ")`. -/
def replaceTabs (s : Str) : Str :=
  s.map (fun c => if c = '\t' then ' ' else c)

/-- One step of `value.replace(/\n{3,}/g, "\n\n")`: a run of three or more
newlines collapses to exactly two.  Fuel-indexed; `squeezeNewlines` supplies
`s.length`, which dominates the number of steps (every step consumes at
least one character). -/
def squeezeAux : Nat → Str → Str
  | 0, _ => []
  | _ + 1, [] => []
  | fuel + 1, '\n' :: rest =>
      let run := rest.takeWhile (fun c => c = '\n')
      (if run.length = 0 then ['\n'] else ['\n', '\n']) ++
        squeezeAux fuel (rest.dropWhile (fun c => c = '\n'))
  | fuel + 1, c :: rest => c :: squeezeAux fuel rest

def squeezeNewlines (s : Str) : Str := squeezeAux s.length s

/-- The step `content.split("\n")` — split on single newlines. -/
def splitNl (s : Str) : List Str := s.splitOn '\n'

/-- The step `join("\n")`. -/
def joinNl (ls : List Str) : Str := List.intercalate ['\n'] ls

/-- Function `normalizeWhitespace` from `indexDocuments.ts`: CRLF → LF, tabs →
spaces, trim line ends, collapse 3+ blank lines, trim the whole text. -/
def normalizeWhitespace (value : Str) : Str :=
  trimStr (squeezeNewlines (joinNl ((splitNl (replaceTabs (replaceCRLF value))).map trimEndStr)))

/-- Sentence-terminator character class `[.!?]`. -/
def isTerm (c : Char) : Bool :=
  c = '.' ∨ c = '!' ∨ c = '?'

/-- Largest index `m ≥ 1` of a whitespace character in `R` (used for the
backtracking step of the sentence regex: the greedy `[^.!?]+` gives back
characters until the next character is whitespace). -/
def lastWsIndex (R : Str) : Option Nat :=
  (((List.range R.length).filter
      (fun m => decide (1 ≤ m) && isWs (R.getD m ' '))).getLast?)

/-- Length of the match of `/[^.!?]+[.!?]*(?:\s+|$)/` anchored at the head
of `s`, or `none` if the regex does not match there.  Follows the regex
engine: `[^.!?]+` takes the maximal run, `[.!?]*` the following terminator
run, then `(?:\s+|$)` must see whitespace or the end; on failure the
`[^.!?]+` run backtracks to the last position followed by whitespace. -/
def matchLenAt (s : Str) : Option Nat :=
  match s with
  | [] => none
  | c :: _ =>
    if isTerm c then none
    else
      let R := s.takeWhile (fun x => !(isTerm x))
      let rest1 := s.dropWhile (fun x => !(isTerm x))
      match rest1 with
      | [] => some R.length
      | _ :: _ =>
        let T := rest1.takeWhile isTerm
        let rest2 := rest1.dropWhile isTerm
        match rest2 with
        | [] => some (R.length + T.length)
        | d :: _ =>
          if isWs d then some (R.length + T.length + (rest2.takeWhile isWs).length)
          else
            match lastWsIndex R with
            | some m => some (m + 1)
            | none => none

/-- The call `trimmed.match(/[^.!?]+[.!?]*(?:\s+|$)/g)`: scan left to right,
collecting non-overlapping matches.  Fuel-indexed; each step consumes at
least one character, so fuel `s.length` (supplied by `scanMatches`)
dominates the iteration count.  (`max n 1` only guards the fuel argument:
`matchLenAt` never returns `0` since `[^.!?]+` matches at least one
character.) -/
def scanAux : Nat → Str → List Str
  | 0, _ => []
  | _ + 1, [] => []
  | fuel + 1, c :: rest =>
    match matchLenAt (c :: rest) with
    | none => scanAux fuel rest
    | some n => (c :: rest).take (max n 1) :: scanAux fuel ((c :: rest).drop (max n 1))

def scanMatches (s : Str) : List Str := scanAux s.length s

/-- The call `content.split(/\n{2,}/)`: a run of two or more newlines separates
paragraphs.  Fuel-indexed; each step consumes at least one character. -/
def splitParasAux : Nat → Str → Str → List Str
  | 0, _, acc => [acc.reverse]
  | _ + 1, [], acc => [acc.reverse]
  | fuel + 1, '\n' :: '\n' :: rest, acc =>
      acc.reverse :: splitParasAux fuel (rest.dropWhile (fun c => c = '\n')) []
  | fuel + 1, c :: rest, acc => splitParasAux fuel rest (c :: acc)

def splitParas (s : Str) : List Str := splitParasAux s.length s []

/-- The sentences contributed by one paragraph in `segmentText`: skip blank
paragraphs, fall back to the whole trimmed paragraph when the regex finds
no match, otherwise keep the non-empty trimmed matches. -/
def sentencesOfPara (para : Str) : List Str :=
  let trimmed := trimStr para
  if trimmed.isEmpty then []
  else
    let ms := scanMatches trimmed
    if ms.isEmpty then [trimmed]
    else ((ms.map trimStr).filter (fun t => !t.isEmpty))

/-- Function `segmentText` from `indexDocuments.ts`. -/
def segmentText (content : Str) : List Str :=
  ((splitParas content).map sentencesOfPara).flatten

/-- The window-start advance of `splitLongSegment`:
`Math.max(end - overlap, start + 1)` with `end = min (start + chunkSize)
textLen` (ℕ subtraction matches `Math.max` against a possibly negative
JavaScript value, since the `start + 1` arm is positive). -/
def splitNext (textLen chunkSize overlap start : Nat) : Nat :=
  max (min (start + chunkSize) textLen - overlap) (start + 1)

/-- The `while (start < text.length)` loop of `splitLongSegment`.
Fuel-indexed; `splitLongSegment` supplies `text.length + 1`, which
dominates the iteration count because the window start strictly increases
(`splitNext` is at least `start + 1`). -/
def splitLongAux (text : Str) (chunkSize overlap : Nat) : Nat → Nat → List Str
  | 0, _ => []
  | fuel + 1, start =>
    if start < text.length then
      let stop := min (start + chunkSize) text.length
      let piece := trimStr (sliceStr text start stop)
      if text.length ≤ stop then [piece]
      else piece :: splitLongAux text chunkSize overlap fuel (splitNext text.length chunkSize overlap start)
    else []

/-- Function `splitLongSegment` from `indexDocuments.ts`: fixed-size windows over an
over-long sentence, with the final `.filter((chunk) => chunk.length > 0)`. -/
def splitLongSegment (text : Str) (chunkSize overlap : Nat) : List Str :=
  (splitLongAux text chunkSize overlap (text.length + 1) 0).filter (fun c => decide (0 < c.length))

/-- Result of the inner packing loop of `chunkContent`: either it stopped
with a packed range (`endIndex`, `currentLength`), or it hit an over-long
sentence with an empty buffer and force-split it (`pieces`), setting
`startIndex = endIndex` to `newStart`. -/
inductive InnerResult where
  | packed (endIndex currentLength : Nat)
  | forced (pieces : List Str) (newStart : Nat)
deriving DecidableEq

/-- The local `const nextLength = currentLength === 0 ? sentenceLength
: currentLength + 1 + sentenceLength` — the packed length if one more
sentence (joined by a single space) were added. -/
def nextLen (currentLength sentenceLength : Nat) : Nat :=
  if currentLength = 0 then sentenceLength else currentLength + 1 + sentenceLength

/-- The inner `while (endIndex < sentences.length)` loop of `chunkContent`.
Fuel-indexed; `innerLoop` supplies `sentences.length - endIndex`, which is
exactly the number of remaining iterations possible (each iteration
increments `endIndex`). -/
def innerLoopAux (sentences : List Str) (chunkSize overlap : Nat) :
    Nat → Nat → Nat → InnerResult
  | 0, endIndex, currentLength => .packed endIndex currentLength
  | fuel + 1, endIndex, currentLength =>
    if h : endIndex < sentences.length then
      if 0 < currentLength ∧
          chunkSize < nextLen currentLength (sentences.get ⟨endIndex, h⟩).length then
        .packed endIndex currentLength
      else if currentLength = 0 ∧ chunkSize < (sentences.get ⟨endIndex, h⟩).length then
        .forced (splitLongSegment (sentences.get ⟨endIndex, h⟩) chunkSize overlap) (endIndex + 1)
      else
        innerLoopAux sentences chunkSize overlap fuel (endIndex + 1)
          (nextLen currentLength (sentences.get ⟨endIndex, h⟩).length)
    else .packed endIndex currentLength

def innerLoop (sentences : List Str) (chunkSize overlap startIndex : Nat) : InnerResult :=
  innerLoopAux sentences chunkSize overlap (sentences.length - startIndex) startIndex 0

/-- The call `sentences.slice(startIndex, endIndex)`. -/
def sliceList (sentences : List Str) (start stop : Nat) : List Str :=
  (sentences.drop start).take (stop - start)

/-- JavaScript `Array.prototype.join(" ")`. -/
def joinSp : List Str → Str
  | [] => []
  | [x] => x
  | x :: y :: t => x ++ ' ' :: joinSp (y :: t)

/-- The backward overlap walk of `chunkContent`:
`while (newStart > startIndex && overlapLength + sentences[newStart-1].length <= overlap)`.
Structural recursion on `newStart`. -/
def walkBack (sentences : List Str) (overlap startIndex : Nat) : Nat → Nat → Nat
  | 0, _ => 0
  | newStart + 1, overlapLength =>
    if startIndex < newStart + 1 then
      if overlapLength + (sentences.getD newStart []).length ≤ overlap then
        walkBack sentences overlap startIndex newStart
          (overlapLength + (sentences.getD newStart []).length)
      else newStart + 1
    else newStart + 1

/-- The start index of the next chunk after closing a packed chunk at
`[startIndex, endIndex)`: the backward walk's stop, forced to `endIndex`
when the walk went all the way back (`if (newStart <= startIndex) newStart
= endIndex`). -/
def nextStartIndex (sentences : List Str) (overlap startIndex endIndex : Nat) : Nat :=
  let newStart := walkBack sentences overlap startIndex endIndex 0
  if newStart ≤ startIndex then endIndex else newStart

/-- The outer `while (startIndex < sentences.length)` loop of
`chunkContent`.  Fuel-indexed; `chunkContent` supplies
`sentences.length + 1`, which dominates the iteration count because the
start index strictly advances on every iteration (`outerNext_advance`).
The `currentLength = 0` branch replays the source's bare `continue`
(reachable only if a sentence were empty, which `segmentText` never
produces). -/
def chunkLoop (sentences : List Str) (chunkSize overlap : Nat) : Nat → Nat → List Str
  | 0, _ => []
  | fuel + 1, startIndex =>
    if startIndex < sentences.length then
      match innerLoop sentences chunkSize overlap startIndex with
      | .forced pieces newStart =>
          pieces ++ chunkLoop sentences chunkSize overlap fuel newStart
      | .packed endIndex currentLength =>
        if currentLength = 0 then
          chunkLoop sentences chunkSize overlap fuel startIndex
        else
          let chunkText := trimStr (joinSp (sliceList sentences startIndex endIndex))
          (if 0 < chunkText.length then [chunkText] else []) ++
            (if sentences.length ≤ endIndex then []
             else chunkLoop sentences chunkSize overlap fuel
                    (nextStartIndex sentences overlap startIndex endIndex))
    else []

/-- The start index the outer loop of `chunkContent` uses for its next
iteration (with `sentences.length` standing for loop exit at a `break`). -/
def outerNext (sentences : List Str) (chunkSize overlap startIndex : Nat) : Nat :=
  match innerLoop sentences chunkSize overlap startIndex with
  | .forced _ newStart => newStart
  | .packed endIndex currentLength =>
    if currentLength = 0 then startIndex
    else if sentences.length ≤ endIndex then sentences.length
    else nextStartIndex sentences overlap startIndex endIndex

/-- Function `chunkContent` from `indexDocuments.ts`. -/
def chunkContent (rawContent : Str) (chunkSize overlap : Nat) : List Str :=
  let content := normalizeWhitespace rawContent
  if content.isEmpty then []
  else
    let sentences := segmentText content
    chunkLoop sentences chunkSize overlap (sentences.length + 1) 0

/-! ## The retrieval store (`src/retrieval/store.ts` / `src/commands/query.ts`) -/

/-- A JavaScript number: an exact real for the finite doubles plus the
IEEE-754 special values.  Finite-precision rounding and overflow of finite
operations are idealized away; the special values propagate by the
IEEE-754 rules that JavaScript arithmetic follows. -/
inductive JsVal where
  | num (r : ℝ)
  | pinf
  | ninf
  | nan

/-- JavaScript `+` on numbers (special-value rules; exact on finite). -/
def jsAdd : JsVal → JsVal → JsVal
  | .nan, _ => .nan
  | _, .nan => .nan
  | .pinf, .ninf => .nan
  | .ninf, .pinf => .nan
  | .pinf, _ => .pinf
  | _, .pinf => .pinf
  | .ninf, _ => .ninf
  | _, .ninf => .ninf
  | .num a, .num b => .num (a + b)

open Classical in
/-- JavaScript `*` on numbers (special-value rules; exact on finite;
`Infinity * 0 = NaN`). -/
noncomputable def jsMul : JsVal → JsVal → JsVal
  | .nan, _ => .nan
  | _, .nan => .nan
  | .pinf, .pinf => .pinf
  | .pinf, .ninf => .ninf
  | .ninf, .pinf => .ninf
  | .ninf, .ninf => .pinf
  | .pinf, .num r => if r = 0 then .nan else if 0 < r then .pinf else .ninf
  | .num r, .pinf => if r = 0 then .nan else if 0 < r then .pinf else .ninf
  | .ninf, .num r => if r = 0 then .nan else if 0 < r then .ninf else .pinf
  | .num r, .ninf => if r = 0 then .nan else if 0 < r then .ninf else .pinf
  | .num a, .num b => .num (a * b)

open Classical in
/-- JavaScript `/` on numbers (special-value rules; exact on finite;
`Infinity / Infinity = NaN`, `finite / Infinity = 0`, `x / 0` is signed
infinity and `0 / 0 = NaN`; the single model zero plays `+0`). -/
noncomputable def jsDiv : JsVal → JsVal → JsVal
  | .nan, _ => .nan
  | _, .nan => .nan
  | .pinf, .pinf => .nan
  | .pinf, .ninf => .nan
  | .ninf, .pinf => .nan
  | .ninf, .ninf => .nan
  | .pinf, .num r => if 0 ≤ r then .pinf else .ninf
  | .ninf, .num r => if 0 ≤ r then .ninf else .pinf
  | .num _, .pinf => .num 0
  | .num _, .ninf => .num 0
  | .num a, .num b =>
      if b = 0 then (if a = 0 then .nan else if 0 < a then .pinf else .ninf)
      else .num (a / b)

open Classical in
/-- JavaScript `Math.sqrt` (negative argument gives `NaN`). -/
noncomputable def jsSqrt : JsVal → JsVal
  | .nan => .nan
  | .pinf => .pinf
  | .ninf => .nan
  | .num r => if r < 0 then .nan else .num (Real.sqrt r)

/-- A loop `acc += x` over a list, starting from `0` (the accumulators
`dot`, `magA`, `magB` of `cosineSimilarity`). -/
def jsSum (l : List JsVal) : JsVal :=
  l.foldl jsAdd (.num 0)

/-- JavaScript `Number.isFinite`. -/
def jsIsFinite : JsVal → Bool
  | .num _ => true
  | _ => false

open Classical in
/-- Function `cosineSimilarity` from `store.ts` / `query.ts`:

```js
if (!a.length || a.length !== b.length) return 0;
let dot = 0; let magA = 0; let magB = 0;
for (let i = 0; i < a.length; i++) {
    dot += a[i] * b[i]; magA += a[i] * a[i]; magB += b[i] * b[i];
}
if (magA === 0 || magB === 0) return 0;
return dot / (Math.sqrt(magA) * Math.sqrt(magB));
```

(`magA === 0` is strict equality against the number `0`: false for `NaN`
and the infinities.) -/
noncomputable def cosineSimilarity (a b : List JsVal) : JsVal :=
  if a.length = 0 ∨ a.length ≠ b.length then .num 0
  else
    if jsSum (List.zipWith jsMul a a) = .num 0 ∨ jsSum (List.zipWith jsMul b b) = .num 0
    then .num 0
    else jsDiv (jsSum (List.zipWith jsMul a b))
           (jsMul (jsSqrt (jsSum (List.zipWith jsMul a a)))
                  (jsSqrt (jsSum (List.zipWith jsMul b b))))

/-- A record of the persisted chunk store (`StoredChunk` in `store.ts`). -/
structure StoredChunk where
  id : String
  filePath : String
  content : String
  embedding : List JsVal
  chunkSize : Nat

/-- One line of the `chunks.jsonl` store file, as seen by the parsing loop
of `searchChunks`: either it fails `JSON.parse`, or it parses but its
`embedding` field is not an array (`Array.isArray` fails), or it is a
well-formed record. -/
inductive JsonLine where
  | invalid
  | noEmbedding
  | record (chunk : StoredChunk)

/-- Whether the parsing loop keeps the line. -/
def isRecordLine : JsonLine → Bool
  | .record _ => true
  | _ => false

/-- One step of the parsing loop of `searchChunks`: `JSON.parse` the line
inside `try`/`catch` and keep it only if it parsed and
`Array.isArray(parsed.embedding)`; a corrupt line yields nothing
(`catch { continue; }`). -/
def parseLine : JsonLine → Option StoredChunk
  | .record chunk => some chunk
  | _ => none

/-- The parsing loop of `searchChunks` over all lines of the store file. -/
def parseLines (lines : List JsonLine) : List StoredChunk :=
  lines.filterMap parseLine

/-- The sort value of a score (all scores that reach the sort are finite
numbers, since the sort runs after the `Number.isFinite` filter). -/
def scoreVal : JsVal → ℝ
  | .num r => r
  | _ => 0

open Classical in
/-- The comparator `(a, b) => b.score - a.score`: keep `p` before `q` when
`p`'s score is at least `q`'s (descending, stable for ties as
`Array.prototype.sort` is). -/
noncomputable def scoreLe (p q : StoredChunk × JsVal) : Bool :=
  decide (scoreVal q.2 ≤ scoreVal p.2)

/-- The call `chunks.map((chunk) => ({ chunk, score: cosineSimilarity(queryEmbedding,
chunk.embedding) }))`. -/
noncomputable def scoredList (lines : List JsonLine) (queryEmbedding : List JsVal) :
    List (StoredChunk × JsVal) :=
  (parseLines lines).map fun chunk => (chunk, cosineSimilarity queryEmbedding chunk.embedding)

/-- The ranked list of `searchChunks`:
`.filter((entry) => Number.isFinite(entry.score)).sort((a, b) => b.score -
a.score).slice(0, k).map((entry) => entry.chunk)`. -/
noncomputable def rankedList (lines : List JsonLine) (queryEmbedding : List JsVal) (k : Nat) :
    List StoredChunk :=
  ((((scoredList lines queryEmbedding).filter
      (fun entry => jsIsFinite entry.2)).mergeSort scoreLe).take k).map Prod.fst

/-- Function `searchChunks` from `store.ts`.  The store file is `none` when absent
(`fs.existsSync` fails); otherwise its trimmed content is the given list
of lines (`raw.split(/\n+/)`), empty when the trimmed file is empty.
`return ranked.length ? ranked : chunks.slice(0, k);` -/
noncomputable def searchChunks (store : Option (List JsonLine))
    (queryEmbedding : List JsVal) (k : Nat) : List StoredChunk :=
  match store with
  | none => []
  | some lines =>
    if lines.isEmpty then []
    else
      if (rankedList lines queryEmbedding k).length ≠ 0 then
        rankedList lines queryEmbedding k
      else (parseLines lines).take k

/-! ## Provider registry and dispatch (`provider.ts` / `query.ts`) -/

/-- Type `ProviderName` from `provider.ts`. -/
inductive ProviderName where
  | ollama
  | openai
  | anthropic
  | google
deriving DecidableEq

/-- Type `ProviderConfig` from `provider.ts`. -/
structure ProviderConfig where
  name : ProviderName
  supportsWebSearch : Bool
  needsApiKey : Bool
  description : String
  models : List String
  defaultModel : String
  recommendedModels : Option (List String)
  instructions : Option String

/-- The `PROVIDERS` catalog from `provider.ts`. -/
def PROVIDERS : ProviderName → ProviderConfig
  | .ollama =>
    { name := .ollama
      supportsWebSearch := false
      needsApiKey := false
      description := "Local Ollama models (run via ollama serve)"
      models := []
      defaultModel := "qwen3:1.7b"
      recommendedModels := some ["qwen3:1.7b", "qwen2.5:7b", "mistral:7b", "phi3:3.8b"]
      instructions := some "Pull models: ollama pull <model-name>\nServe models: ollama serve\nFor available models, visit: https://ollama.com/library" }
  | .openai =>
    { name := .openai
      supportsWebSearch := false
      needsApiKey := true
      description := "OpenAI API models (GPT-5, GPT-4o, etc.)"
      models := ["gpt-5", "gpt-4.1", "gpt-4.1-mini", "gpt-4o", "gpt-4o-mini"]
      defaultModel := "gpt-5"
      recommendedModels := none
      instructions := none }
  | .anthropic =>
    { name := .anthropic
      supportsWebSearch := false
      needsApiKey := true
      description := "Anthropic Claude models"
      models := ["claude-opus-4", "claude-sonnet-4", "claude-haiku-4.5", "claude-3-5-sonnet-20241022"]
      defaultModel := "claude-opus-4"
      recommendedModels := none
      instructions := none }
  | .google =>
    { name := .google
      supportsWebSearch := false
      needsApiKey := true
      description := "Google Gemini models"
      models := ["gemini-2.5-pro", "gemini-2.5-flash", "gemini-2.0-flash-exp", "gemini-1.5-pro"]
      defaultModel := "gemini-2.5-pro"
      recommendedModels := none
      instructions := none }

/-- The network call a successful dispatch performs (the provider-specific
`fetch` target of `queryOllama` / `queryOpenAI` / `queryAnthropic` /
`queryGemini`); an erroring dispatch throws before constructing one of
these, i.e. before any network call. -/
inductive ProviderCall where
  | ollamaGenerate (model prompt : String)
  | openaiChat (model prompt apiKey : String)
  | anthropicMessages (model prompt apiKey : String)
  | geminiGenerate (model prompt apiKey : String)

/-- JavaScript truthiness of the optional `apiKey` string: `!apiKey` is
true when the key is absent (`undefined`) or the empty string. -/
def isFalsyKey : Option String → Bool
  | none => true
  | some s => s.isEmpty

/-- The display name each credential error message uses for its provider. -/
def providerKeyLabel : ProviderName → String
  | .ollama => "Ollama"
  | .openai => "OpenAI"
  | .anthropic => "Anthropic"
  | .google => "Google Gemini"

/-- Function `dispatchToProvider` from `query.ts`: the `switch` on the provider
name; the credential check `if (!apiKey) throw new Error(...)` runs before
the provider-specific `fetch` helpers, so a thrown error (`Except.error`)
means no network call was made.  (The `default` branch is unreachable:
`ProviderName` is the closed union of the four cases.) -/
def dispatchToProvider (provider : ProviderName) (model prompt : String)
    (apiKey : Option String) : Except String ProviderCall :=
  match provider with
  | .ollama => .ok (.ollamaGenerate model prompt)
  | .openai =>
      if isFalsyKey apiKey then .error "API key required for OpenAI."
      else .ok (.openaiChat model prompt (apiKey.getD ""))
  | .anthropic =>
      if isFalsyKey apiKey then .error "API key required for Anthropic."
      else .ok (.anthropicMessages model prompt (apiKey.getD ""))
  | .google =>
      if isFalsyKey apiKey then .error "API key required for Google Gemini."
      else .ok (.geminiGenerate model prompt (apiKey.getD ""))

/-- Sum of squares of a real vector (the value of `magA`/`magB` on finite
input). -/
def sumSq (l : List ℝ) : ℝ := (l.map (fun x => x * x)).sum

/-- Dot product of two real vectors (the value of `dot` on finite input). -/
def dotProd (a b : List ℝ) : ℝ := (List.zipWith (fun x y => x * y) a b).sum

/-- The store record used in the zero-vector scenario: a chunk persisted
with the all-zero embedding `[0]`. -/
def zeroRec : StoredChunk :=
  { id := "doc:0", filePath := "doc", content := "zero", embedding := [JsVal.num 0], chunkSize := 800 }

/-- The store record used in the degenerate-fallback scenario: a chunk
whose persisted embedding entry is `Infinity` (as `JSON.parse` yields for
an overlarge numeric literal such as `1e999`). -/
def infRec : StoredChunk :=
  { id := "doc:1", filePath := "doc", content := "inf", embedding := [JsVal.pinf], chunkSize := 800 }

/-! ### Basic length lemmas -/

theorem trimStr_length_le (s : Str) : (trimStr s).length ≤ s.length := by
  simp only [trimStr, List.length_reverse]
  have h1 := List.Sublist.length_le (List.dropWhile_sublist (l := (s.dropWhile isWs).reverse) isWs)
  rw [List.length_reverse] at h1
  exact le_trans h1 (List.Sublist.length_le (List.dropWhile_sublist isWs))

theorem sliceStr_length_le (s : Str) (start stop : Nat) :
    (sliceStr s start stop).length ≤ stop - start := by
  simp only [sliceStr]
  exact List.length_take_le _ _

theorem splitLongAux_bound (text : Str) (cs ov : Nat) :
    ∀ fuel start x, x ∈ splitLongAux text cs ov fuel start → x.length ≤ cs := by
  intro fuel
  induction fuel with
  | zero => intro start x hx; simp [splitLongAux] at hx
  | succ n ih =>
    intro start x hx
    have hpiece : (trimStr (sliceStr text start (min (start + cs) text.length))).length ≤ cs := by
      refine le_trans (trimStr_length_le _) (le_trans (sliceStr_length_le _ _ _) ?_)
      omega
    simp only [splitLongAux] at hx
    split at hx
    · split at hx
      · simp only [List.mem_singleton] at hx
        exact hx ▸ hpiece
      · rcases List.mem_cons.1 hx with hx | hx
        · exact hx ▸ hpiece
        · exact ih _ _ hx
    · simp at hx

theorem splitLongSegment_bound (text : Str) (cs ov : Nat) :
    ∀ x ∈ splitLongSegment text cs ov, x.length ≤ cs := by
  intro x hx
  exact splitLongAux_bound text cs ov _ _ x (List.mem_of_mem_filter hx)

/-! ### Slices and joins -/

theorem sliceList_self (s : List Str) (start : Nat) : sliceList s start start = [] := by
  simp [sliceList]

theorem sliceList_succ (s : List Str) (start i : Nat) (h1 : start ≤ i) (h2 : i < s.length) :
    sliceList s start (i + 1) = sliceList s start i ++ [s.get ⟨i, h2⟩] := by
  unfold sliceList
  have hs : i + 1 - start = (i - start) + 1 := by omega
  rw [hs, List.take_succ, List.getElem?_drop]
  have hi : start + (i - start) = i := by omega
  rw [hi, List.getElem?_eq_getElem h2]
  simp [List.get_eq_getElem]

theorem sliceList_ne_nil (s : List Str) (start i : Nat) (h1 : start < i) (h2 : start < s.length) :
    sliceList s start i ≠ [] := by
  have hlen : 0 < (sliceList s start i).length := by
    simp only [sliceList, List.length_take, List.length_drop]
    omega
  exact List.ne_nil_of_length_pos hlen

theorem joinSp_append_singleton : ∀ (l : List Str) (x : Str), l ≠ [] →
    joinSp (l ++ [x]) = joinSp l ++ ' ' :: x := by
  intro l
  induction l with
  | nil => intro x h; exact absurd rfl h
  | cons a t ih =>
    intro x h
    cases t with
    | nil => rfl
    | cons b t2 =>
      have hih := ih x (by simp)
      calc joinSp ((a :: b :: t2) ++ [x])
          = a ++ ' ' :: joinSp ((b :: t2) ++ [x]) := rfl
        _ = a ++ ' ' :: (joinSp (b :: t2) ++ ' ' :: x) := by rw [hih]
        _ = joinSp (a :: b :: t2) ++ ' ' :: x := by simp [joinSp]

/-! ### Sentences produced by `segmentText` are non-empty -/

theorem sentencesOfPara_ne_nil (para : Str) : ∀ x ∈ sentencesOfPara para, x ≠ [] := by
  intro x hx
  by_cases h1 : (trimStr para).isEmpty
  · simp [sentencesOfPara, h1] at hx
  · by_cases h2 : (scanMatches (trimStr para)).isEmpty
    · simp [sentencesOfPara, h1, h2] at hx
      subst hx
      simpa [List.isEmpty_iff] using h1
    · simp only [sentencesOfPara, h1, h2, if_false, Bool.false_eq_true] at hx
      have hmem := List.mem_filter.1 hx
      intro hnil
      rw [hnil] at hmem
      simp at hmem

theorem segmentText_ne_nil (content : Str) : ∀ x ∈ segmentText content, x ≠ [] := by
  intro x hx
  simp only [segmentText, List.mem_flatten, List.mem_map] at hx
  obtain ⟨l, ⟨para, _, hl⟩, hxl⟩ := hx
  subst hl
  exact sentencesOfPara_ne_nil para x hxl

/-! ### The inner packing loop -/

theorem nextLen_zero (L : Nat) : nextLen 0 L = L := by simp [nextLen]

theorem nextLen_of_pos (c L : Nat) (h : 0 < c) : nextLen c L = c + 1 + L := by
  simp [nextLen]
  omega

theorem nextLen_pos_of_pos (c L : Nat) (h : 0 < c) : 0 < nextLen c L := by
  rw [nextLen_of_pos c L h]
  omega

theorem innerLoopAux_forced (sentences : List Str) (cs ov : Nat) :
    ∀ fuel i c p ns, innerLoopAux sentences cs ov fuel i c = .forced p ns →
      i < ns ∧ ∃ x, p = splitLongSegment x cs ov := by
  intro fuel
  induction fuel with
  | zero => intro i c p ns h; simp [innerLoopAux] at h
  | succ n ih =>
    intro i c p ns h
    rw [innerLoopAux] at h
    split at h
    · split at h
      · simp at h
      · split at h
        · simp only [InnerResult.forced.injEq] at h
          exact ⟨by omega, _, h.1.symm⟩
        · have := ih _ _ _ _ h
          exact ⟨by omega, this.2⟩
    · simp at h

theorem innerLoopAux_pos (sentences : List Str) (cs ov : Nat) :
    ∀ fuel i c e c', 0 < c → innerLoopAux sentences cs ov fuel i c = .packed e c' →
      0 < c' := by
  intro fuel
  induction fuel with
  | zero =>
    intro i c e c' hc h
    simp only [innerLoopAux, InnerResult.packed.injEq] at h
    omega
  | succ n ih =>
    intro i c e c' hc h
    rw [innerLoopAux] at h
    split at h
    · split at h
      · simp only [InnerResult.packed.injEq] at h
        omega
      · split at h
        · simp at h
        · exact ih _ _ _ _ (nextLen_pos_of_pos _ _ hc) h
    · simp only [InnerResult.packed.injEq] at h
      omega

theorem innerLoopAux_packed (sentences : List Str) (cs ov start : Nat)
    (hne : ∀ x ∈ sentences, x ≠ []) :
    ∀ fuel i c e c',
      ((i = start ∧ c = 0) ∨
        (start < i ∧ 0 < c ∧ (joinSp (sliceList sentences start i)).length ≤ c)) →
      c ≤ cs →
      innerLoopAux sentences cs ov fuel i c = .packed e c' →
      c' ≤ cs ∧ (0 < c' → start < e ∧ (joinSp (sliceList sentences start e)).length ≤ c') := by
  intro fuel
  induction fuel with
  | zero =>
    intro i c e c' hinv hc h
    simp only [innerLoopAux, InnerResult.packed.injEq] at h
    obtain ⟨he, hc'⟩ := h
    subst he; subst hc'
    refine ⟨hc, fun hpos => ?_⟩
    rcases hinv with ⟨_, hc0⟩ | ⟨h1, _, h3⟩
    · omega
    · exact ⟨h1, h3⟩
  | succ n ih =>
    intro i c e c' hinv hc h
    rw [innerLoopAux] at h
    split at h
    case isTrue hi =>
      split at h
      case isTrue hcond =>
        simp only [InnerResult.packed.injEq] at h
        obtain ⟨he, hc'⟩ := h
        subst he; subst hc'
        refine ⟨hc, fun hpos => ?_⟩
        rcases hinv with ⟨_, hc0⟩ | ⟨h1, _, h3⟩
        · omega
        · exact ⟨h1, h3⟩
      case isFalse hcond =>
        split at h
        case isTrue hlong => simp at h
        case isFalse hshort =>
          refine ih _ _ _ _ ?_ ?_ h
          · -- the invariant is preserved after consuming sentence i
            rcases hinv with ⟨hi0, hc0⟩ | ⟨h1, h2, h3⟩
            · subst hi0; subst hc0
              right
              have hlen : 0 < (sentences.get ⟨i, hi⟩).length :=
                List.length_pos.2 (hne _ (List.get_mem sentences i hi))
              refine ⟨by omega, ?_, ?_⟩
              · rw [nextLen_zero]
                exact hlen
              · rw [nextLen_zero,
                    sliceList_succ sentences i i (le_refl i) hi,
                    sliceList_self, List.nil_append, joinSp]
            · right
              refine ⟨by omega, nextLen_pos_of_pos _ _ h2, ?_⟩
              rw [nextLen_of_pos _ _ h2,
                  sliceList_succ sentences start i (le_of_lt h1) hi,
                  joinSp_append_singleton _ _
                    (sliceList_ne_nil sentences start i h1 (lt_trans h1 hi))]
              simp only [List.length_append, List.length_cons]
              omega
          · -- nextLen stays within chunkSize
            rcases hinv with ⟨hi0, hc0⟩ | ⟨h1, h2, h3⟩
            · subst hc0
              rw [nextLen_zero]
              rcases Nat.lt_or_ge cs (sentences.get ⟨i, hi⟩).length with hlt | hge
              · exact absurd ⟨rfl, hlt⟩ hshort
              · exact hge
            · rcases Nat.lt_or_ge cs (nextLen c (sentences.get ⟨i, hi⟩).length) with hlt | hge
              · exact absurd ⟨h2, hlt⟩ hcond
              · exact hge
    case isFalse hi =>
      simp only [InnerResult.packed.injEq] at h
      obtain ⟨he, hc'⟩ := h
      subst he; subst hc'
      refine ⟨hc, fun hpos => ?_⟩
      rcases hinv with ⟨_, hc0⟩ | ⟨h1, _, h3⟩
      · omega
      · exact ⟨h1, h3⟩

theorem innerLoop_start_pos (sentences : List Str) (cs ov start : Nat)
    (hs : start < sentences.length) (hne : ∀ x ∈ sentences, x ≠ []) :
    ∀ e c', innerLoop sentences cs ov start = .packed e c' → 0 < c' := by
  intro e c' h
  unfold innerLoop at h
  obtain ⟨m, hm⟩ : ∃ m, sentences.length - start = m + 1 :=
    ⟨sentences.length - start - 1, by omega⟩
  rw [hm, innerLoopAux, dif_pos hs, if_neg (by omega)] at h
  have hlen : 0 < (sentences.get ⟨start, hs⟩).length :=
    List.length_pos.2 (hne _ (List.get_mem sentences start hs))
  split at h
  · simp at h
  · refine innerLoopAux_pos sentences cs ov m (start + 1) _ e c' ?_ h
    rw [nextLen_zero]
    exact hlen

/-! ### The backward overlap walk and the outer loop -/

theorem walkBack_le (sentences : List Str) (ov st : Nat) :
    ∀ ns acc, walkBack sentences ov st ns acc ≤ ns := by
  intro ns
  induction ns with
  | zero => intro acc; simp [walkBack]
  | succ m ih =>
    intro acc
    rw [walkBack]
    split
    · split
      · exact le_trans (ih _) (by omega)
      · exact le_refl _
    · exact le_refl _

theorem walkBack_ge (sentences : List Str) (ov st : Nat) :
    ∀ ns acc, st ≤ ns → st ≤ walkBack sentences ov st ns acc := by
  intro ns
  induction ns with
  | zero => intro acc h; simpa [walkBack] using h
  | succ m ih =>
    intro acc h
    rw [walkBack]
    split
    case isTrue hlt =>
      split
      · exact ih _ (by omega)
      · exact h
    case isFalse hlt => exact h

theorem nextStartIndex_advance (sentences : List Str) (ov start e : Nat) (h : start < e) :
    start < nextStartIndex sentences ov start e := by
  have hge := walkBack_ge sentences ov start e 0 (le_of_lt h)
  have hcast : nextStartIndex sentences ov start e =
      (if walkBack sentences ov start e 0 ≤ start then e
       else walkBack sentences ov start e 0) := rfl
  rw [hcast]
  split
  · exact h
  · omega

theorem outerNext_advance (sentences : List Str) (cs ov start : Nat)
    (hne : ∀ x ∈ sentences, x ≠ []) (hs : start < sentences.length) :
    start < outerNext sentences cs ov start := by
  cases heq : innerLoop sentences cs ov start with
  | forced p ns =>
    have h1 : outerNext sentences cs ov start = ns := by
      unfold outerNext
      rw [heq]
    rw [h1]
    exact (innerLoopAux_forced sentences cs ov _ _ _ _ _ heq).1
  | packed e c' =>
    have hpos : 0 < c' := innerLoop_start_pos sentences cs ov start hs hne e c' heq
    have he : start < e :=
      ((innerLoopAux_packed sentences cs ov start hne _ _ _ _ _
          (Or.inl ⟨rfl, rfl⟩) (Nat.zero_le cs) heq).2 hpos).1
    have h1 : outerNext sentences cs ov start =
        (if c' = 0 then start
         else if sentences.length ≤ e then sentences.length
         else nextStartIndex sentences ov start e) := by
      unfold outerNext
      rw [heq]
    rw [h1, if_neg (by omega : ¬ c' = 0)]
    split
    · exact hs
    · exact nextStartIndex_advance sentences ov start e he

/-! ### Every chunk respects the size bound -/

theorem chunkLoop_bound (sentences : List Str) (cs ov : Nat)
    (hne : ∀ x ∈ sentences, x ≠ []) :
    ∀ fuel start x, x ∈ chunkLoop sentences cs ov fuel start → x.length ≤ cs := by
  intro fuel
  induction fuel with
  | zero => intro start x hx; simp [chunkLoop] at hx
  | succ n ih =>
    intro start x hx
    by_cases hs : start < sentences.length
    · cases heq : innerLoop sentences cs ov start with
      | forced p ns =>
        have hx' : x ∈ p ++ chunkLoop sentences cs ov n ns := by
          rw [chunkLoop, if_pos hs, heq] at hx
          exact hx
        rcases List.mem_append.1 hx' with hx2 | hx2
        · obtain ⟨y, hy⟩ := (innerLoopAux_forced sentences cs ov _ _ _ _ _ heq).2
          subst hy
          exact splitLongSegment_bound y cs ov x hx2
        · exact ih _ _ hx2
      | packed e c' =>
        have hx' : x ∈
            (if c' = 0 then chunkLoop sentences cs ov n start
             else (if 0 < (trimStr (joinSp (sliceList sentences start e))).length
                   then [trimStr (joinSp (sliceList sentences start e))] else []) ++
                  (if sentences.length ≤ e then []
                   else chunkLoop sentences cs ov n (nextStartIndex sentences ov start e))) := by
          rw [chunkLoop, if_pos hs, heq] at hx
          exact hx
        split at hx'
        · exact ih _ _ hx'
        next hc' =>
          have hinv := innerLoopAux_packed sentences cs ov start hne _ _ _ _ _
            (Or.inl ⟨rfl, rfl⟩) (Nat.zero_le cs) heq
          have hbound := (hinv.2 (by omega)).2
          rcases List.mem_append.1 hx' with hx2 | hx2
          · split at hx2
            · simp only [List.mem_singleton] at hx2
              subst hx2
              exact le_trans (trimStr_length_le _) (le_trans hbound hinv.1)
            · simp at hx2
          · split at hx2
            · simp at hx2
            · exact ih _ _ hx2
    · have hx' : x ∈ ([] : List Str) := by
        rw [chunkLoop, if_neg hs] at hx
        exact hx
      simp at hx'

theorem splitLongAux_fuel_stable (text : Str) (cs ov : Nat) :
    ∀ f1 f2 start, text.length - start < f1 → text.length - start < f2 →
      splitLongAux text cs ov f1 start = splitLongAux text cs ov f2 start := by
  intro f1
  induction f1 with
  | zero => intro f2 start h1 h2; omega
  | succ n ih =>
    intro f2 start h1 h2
    obtain ⟨m, rfl⟩ : ∃ m, f2 = m + 1 := ⟨f2 - 1, by omega⟩
    rw [splitLongAux, splitLongAux]
    by_cases hs : start < text.length
    · rw [if_pos hs, if_pos hs]
      by_cases hstop : text.length ≤ min (start + cs) text.length
      · rw [if_pos hstop, if_pos hstop]
      · rw [if_neg hstop, if_neg hstop]
        have hadv : start + 1 ≤ splitNext text.length cs ov start := le_max_right _ _
        rw [ih m (splitNext text.length cs ov start) (by omega) (by omega)]
    · rw [if_neg hs, if_neg hs]

theorem chunkLoop_fuel_stable (sentences : List Str) (cs ov : Nat)
    (hne : ∀ x ∈ sentences, x ≠ []) :
    ∀ f1 f2 start, sentences.length - start < f1 → sentences.length - start < f2 →
      chunkLoop sentences cs ov f1 start = chunkLoop sentences cs ov f2 start := by
  intro f1
  induction f1 with
  | zero => intro f2 start h1 h2; omega
  | succ n ih =>
    intro f2 start h1 h2
    obtain ⟨m, rfl⟩ : ∃ m, f2 = m + 1 := ⟨f2 - 1, by omega⟩
    by_cases hs : start < sentences.length
    · cases heq : innerLoop sentences cs ov start with
      | forced p ns =>
        have hns := (innerLoopAux_forced sentences cs ov _ _ _ _ _ heq).1
        have e1 : chunkLoop sentences cs ov (n + 1) start =
            p ++ chunkLoop sentences cs ov n ns := by
          rw [chunkLoop, if_pos hs, heq]
        have e2 : chunkLoop sentences cs ov (m + 1) start =
            p ++ chunkLoop sentences cs ov m ns := by
          rw [chunkLoop, if_pos hs, heq]
        rw [e1, e2, ih m ns (by omega) (by omega)]
      | packed e c' =>
        have hpos : 0 < c' := innerLoop_start_pos sentences cs ov start hs hne e c' heq
        have he : start < e :=
          ((innerLoopAux_packed sentences cs ov start hne _ _ _ _ _
              (Or.inl ⟨rfl, rfl⟩) (Nat.zero_le cs) heq).2 hpos).1
        have hnext := nextStartIndex_advance sentences ov start e he
        have e1 : chunkLoop sentences cs ov (n + 1) start =
            (if c' = 0 then chunkLoop sentences cs ov n start
             else (if 0 < (trimStr (joinSp (sliceList sentences start e))).length
                   then [trimStr (joinSp (sliceList sentences start e))] else []) ++
                  (if sentences.length ≤ e then []
                   else chunkLoop sentences cs ov n (nextStartIndex sentences ov start e))) := by
          rw [chunkLoop, if_pos hs, heq]
        have e2 : chunkLoop sentences cs ov (m + 1) start =
            (if c' = 0 then chunkLoop sentences cs ov m start
             else (if 0 < (trimStr (joinSp (sliceList sentences start e))).length
                   then [trimStr (joinSp (sliceList sentences start e))] else []) ++
                  (if sentences.length ≤ e then []
                   else chunkLoop sentences cs ov m (nextStartIndex sentences ov start e))) := by
          rw [chunkLoop, if_pos hs, heq]
        rw [e1, e2, if_neg (by omega : ¬ c' = 0), if_neg (by omega : ¬ c' = 0)]
        congr 1
        by_cases hbr : sentences.length ≤ e
        · rw [if_pos hbr, if_pos hbr]
        · rw [if_neg hbr, if_neg hbr,
            ih m (nextStartIndex sentences ov start e) (by omega) (by omega)]
    · have e1 : chunkLoop sentences cs ov (n + 1) start = [] := by
        rw [chunkLoop, if_neg hs]
      have e2 : chunkLoop sentences cs ov (m + 1) start = [] := by
        rw [chunkLoop, if_neg hs]
      rw [e1, e2]

/-! ### Claim theorems for the Segmenter -/

/-- C1: for every input text, every `chunkSize > 0` and every
`overlap ≥ 0` (all `Nat` overlaps), every chunk returned by `chunkContent`
has character length at most `chunkSize`; in particular `splitLongSegment`
cuts a single sentence-unit longer than `chunkSize` into pieces each of
length at most `chunkSize`. -/
theorem chunkContent_length_le (text : Str) (chunkSize overlap : Nat)
    (h : 0 < chunkSize) :
    (∀ chunk ∈ chunkContent text chunkSize overlap, chunk.length ≤ chunkSize) ∧
    (∀ s : Str, chunkSize < s.length →
      ∀ piece ∈ splitLongSegment s chunkSize overlap, piece.length ≤ chunkSize) := by
  constructor
  · intro chunk hchunk
    by_cases hempty : (normalizeWhitespace text).isEmpty
    · have : chunk ∈ ([] : List Str) := by
        rw [chunkContent, if_pos hempty] at hchunk
        exact hchunk
      simp at this
    · have hchunk' : chunk ∈ chunkLoop (segmentText (normalizeWhitespace text))
          chunkSize overlap ((segmentText (normalizeWhitespace text)).length + 1) 0 := by
        rw [chunkContent, if_neg hempty] at hchunk
        exact hchunk
      exact chunkLoop_bound (segmentText (normalizeWhitespace text)) chunkSize overlap
        (segmentText_ne_nil (normalizeWhitespace text)) _ _ chunk hchunk'
  · intro s _ piece hp
    exact splitLongSegment_bound s chunkSize overlap piece hp

/-- Witness for C1 at the spec's end-to-end scenario 1: the text
`"Hello world. This is chunk two."` with `chunkSize = 20`, `overlap = 5`. -/
theorem chunkContent_length_le_witness :
    0 < 20 ∧
    ∀ chunk ∈ chunkContent ("Hello world. This is chunk two.".toList) 20 5,
      chunk.length ≤ 20 :=
  ⟨by decide,
   (chunkContent_length_le ("Hello world. This is chunk two.".toList) 20 5 (by decide)).1⟩

/-- C2: the segmenter terminates on every input: for every text, every
`chunkSize > 0` and every overlap (including `overlap ≥ chunkSize`), the
outer packing loop of `chunkContent` strictly advances its start index on
every iteration (`outerNext`), and the forced character-level split
advances its window start by at least one character (`splitNext`).
Consequently both loops stabilize: their results do not depend on the fuel
bound once it exceeds the iteration count, which is the termination of the
modelled `while` loops. -/
theorem segmenter_strict_advance (text : Str) (chunkSize overlap startIndex : Nat)
    (h : 0 < chunkSize)
    (hs : startIndex < (segmentText (normalizeWhitespace text)).length) :
    (startIndex <
      outerNext (segmentText (normalizeWhitespace text)) chunkSize overlap startIndex ∧
     ∀ textLen s : Nat, s + 1 ≤ splitNext textLen chunkSize overlap s) ∧
    ((∀ f1 f2 : Nat, (segmentText (normalizeWhitespace text)).length < f1 →
        (segmentText (normalizeWhitespace text)).length < f2 →
        chunkLoop (segmentText (normalizeWhitespace text)) chunkSize overlap f1 0 =
          chunkLoop (segmentText (normalizeWhitespace text)) chunkSize overlap f2 0) ∧
     ∀ (s : Str) (f1 f2 : Nat), s.length < f1 → s.length < f2 →
        splitLongAux s chunkSize overlap f1 0 = splitLongAux s chunkSize overlap f2 0) :=
  ⟨⟨outerNext_advance (segmentText (normalizeWhitespace text)) chunkSize overlap startIndex
      (segmentText_ne_nil (normalizeWhitespace text)) hs,
    fun _ _ => le_max_right _ _⟩,
   ⟨fun f1 f2 h1 h2 =>
      chunkLoop_fuel_stable (segmentText (normalizeWhitespace text)) chunkSize overlap
        (segmentText_ne_nil (normalizeWhitespace text)) f1 f2 0 (by omega) (by omega),
    fun s f1 f2 h1 h2 =>
      splitLongAux_fuel_stable s chunkSize overlap f1 f2 0 (by omega) (by omega)⟩⟩

/-- Witness for C2 at the text `"Hi."` with `chunkSize = 2`,
`overlap = 100` (an `overlap ≥ chunkSize` instance). -/
theorem segmenter_strict_advance_witness :
    (0 < 2 ∧ 0 < (segmentText (normalizeWhitespace ("Hi.".toList))).length) ∧
    0 < outerNext (segmentText (normalizeWhitespace ("Hi.".toList))) 2 100 0 :=
  ⟨⟨by decide, by decide⟩,
   (segmenter_strict_advance ("Hi.".toList) 2 100 0 (by decide) (by decide)).1.1⟩

/-- C3, counterexample: with sentences `["ab", "cd", "ef"]`, `chunkSize = 5`
and `overlap = 100`, the inner loop packs the unit range `[0, 2)` (so
`start = 0`, `end = 2`), and the backward walk moves all the way back to
index `0` — maximal backward movement — yet the next start is still forced
to `end = 2`.  This refutes the claim that the next start equals `end`
exactly when the backward walk produces no backward movement at all. -/
theorem nextStart_forced_counterexample :
    innerLoop [['a','b'], ['c','d'], ['e','f']] 5 100 0 = InnerResult.packed 2 5 ∧
    walkBack [['a','b'], ['c','d'], ['e','f']] 100 0 2 0 = 0 ∧
    ¬ (nextStartIndex [['a','b'], ['c','d'], ['e','f']] 100 0 2 = 2 ↔
        walkBack [['a','b'], ['c','d'], ['e','f']] 100 0 2 0 = 2) := by
  refine ⟨by decide, by decide, ?_⟩
  intro hiff
  have h2 : nextStartIndex [['a','b'], ['c','d'], ['e','f']] 100 0 2 = 2 := by decide
  have h0 : walkBack [['a','b'], ['c','d'], ['e','f']] 100 0 2 0 = 0 := by decide
  rw [hiff.1 h2] at h0
  exact absurd h0 (by decide)

/-- C3, amended: after closing a packed chunk at unit range
`[startIndex, endIndex)`, the next start equals the backward walk's
stopping index whenever that stop lies strictly above `startIndex`, and it
is forced to `endIndex` (zero overlap) exactly when the walk either
produces no backward movement at all or walks all the way back to
`startIndex`. -/
theorem nextStart_characterization (sentences : List Str)
    (overlap startIndex endIndex : Nat) (h : startIndex < endIndex) :
    (nextStartIndex sentences overlap startIndex endIndex = endIndex ↔
      (walkBack sentences overlap startIndex endIndex 0 = endIndex ∨
       walkBack sentences overlap startIndex endIndex 0 = startIndex)) ∧
    (walkBack sentences overlap startIndex endIndex 0 ≠ startIndex →
      nextStartIndex sentences overlap startIndex endIndex =
        walkBack sentences overlap startIndex endIndex 0) := by
  have hge := walkBack_ge sentences overlap startIndex endIndex 0 (le_of_lt h)
  have hcast : nextStartIndex sentences overlap startIndex endIndex =
      (if walkBack sentences overlap startIndex endIndex 0 ≤ startIndex then endIndex
       else walkBack sentences overlap startIndex endIndex 0) := rfl
  rw [hcast]
  by_cases hle : walkBack sentences overlap startIndex endIndex 0 ≤ startIndex
  · have heq : walkBack sentences overlap startIndex endIndex 0 = startIndex := by omega
    rw [if_pos hle]
    exact ⟨⟨fun _ => Or.inr heq, fun _ => rfl⟩, fun hne => absurd heq hne⟩
  · rw [if_neg hle]
    refine ⟨⟨fun he => Or.inl he, ?_⟩, fun _ => rfl⟩
    rintro (he | hst)
    · exact he
    · exact absurd hst (by omega)

/-- Witness for the amended C3 at `sentences = ["ab", "cd", "ef"]`,
`overlap = 1`, `startIndex = 0`, `endIndex = 2` (here the walk makes no
movement, and the next start is `endIndex`). -/
theorem nextStart_characterization_witness :
    (0 : Nat) < 2 ∧
    (nextStartIndex [['a','b'], ['c','d'], ['e','f']] 1 0 2 = 2 ↔
      (walkBack [['a','b'], ['c','d'], ['e','f']] 1 0 2 0 = 2 ∨
       walkBack [['a','b'], ['c','d'], ['e','f']] 1 0 2 0 = 0)) :=
  ⟨by decide,
   (nextStart_characterization [['a','b'], ['c','d'], ['e','f']] 1 0 2 (by decide)).1⟩

/-! ### Finite-vector arithmetic lemmas -/

theorem jsAdd_num (a b : ℝ) : jsAdd (.num a) (.num b) = .num (a + b) := rfl

theorem jsMul_num (a b : ℝ) : jsMul (.num a) (.num b) = .num (a * b) := rfl

theorem zipWith_jsMul_map_num (a : List ℝ) :
    ∀ b : List ℝ, List.zipWith jsMul (a.map JsVal.num) (b.map JsVal.num) =
      (List.zipWith (fun x y => x * y) a b).map JsVal.num := by
  induction a with
  | nil => intro b; simp
  | cons x t ih =>
    intro b
    cases b with
    | nil => simp
    | cons y u => simp [jsMul_num, ih u]

theorem foldl_jsAdd_map_num (l : List ℝ) :
    ∀ s : ℝ, List.foldl jsAdd (.num s) (l.map JsVal.num) = .num (s + l.sum) := by
  induction l with
  | nil => intro s; simp
  | cons x t ih =>
    intro s
    simp only [List.map_cons, List.foldl_cons, jsAdd_num, ih, List.sum_cons]
    congr 1
    ring

theorem jsSum_map_num (l : List ℝ) : jsSum (l.map JsVal.num) = .num l.sum := by
  rw [jsSum, foldl_jsAdd_map_num l 0, zero_add]

theorem zipWith_mul_self (a : List ℝ) :
    List.zipWith (fun x y => x * y) a a = a.map (fun x => x * x) := by
  induction a with
  | nil => rfl
  | cons x t ih => simp [ih]

theorem mag_map_num (a : List ℝ) :
    jsSum (List.zipWith jsMul (a.map JsVal.num) (a.map JsVal.num)) = .num (sumSq a) := by
  rw [zipWith_jsMul_map_num, jsSum_map_num, zipWith_mul_self, sumSq]

theorem dot_map_num (a b : List ℝ) :
    jsSum (List.zipWith jsMul (a.map JsVal.num) (b.map JsVal.num)) = .num (dotProd a b) := by
  rw [zipWith_jsMul_map_num, jsSum_map_num, dotProd]

theorem sumSq_nonneg (l : List ℝ) : 0 ≤ sumSq l := by
  induction l with
  | nil => simp [sumSq]
  | cons x t ih =>
    have hx : 0 ≤ x * x := mul_self_nonneg x
    simp only [sumSq, List.map_cons, List.sum_cons] at *
    exact add_nonneg hx ih

theorem sumSq_cons (x : ℝ) (t : List ℝ) : sumSq (x :: t) = x * x + sumSq t := by
  simp [sumSq]

theorem dotProd_cons (x y : ℝ) (a b : List ℝ) :
    dotProd (x :: a) (y :: b) = x * y + dotProd a b := by
  simp [dotProd]

theorem sumSq_pos (l : List ℝ) (x : ℝ) (hx : x ∈ l) (hx0 : x ≠ 0) : 0 < sumSq l := by
  induction l with
  | nil => simp at hx
  | cons y t ih =>
    rw [sumSq_cons]
    rcases List.mem_cons.1 hx with h | h
    · subst h
      exact add_pos_of_pos_of_nonneg (mul_self_pos.2 hx0) (sumSq_nonneg t)
    · exact add_pos_of_nonneg_of_pos (mul_self_nonneg y) (ih h)

theorem dotProd_comm (a : List ℝ) : ∀ b : List ℝ, dotProd a b = dotProd b a := by
  induction a with
  | nil => intro b; cases b <;> simp [dotProd]
  | cons x t ih =>
    intro b
    cases b with
    | nil => simp [dotProd]
    | cons y u => rw [dotProd_cons, dotProd_cons, ih u, mul_comm]

theorem cs_step (x y d A B : ℝ) (hA : 0 ≤ A) (hB : 0 ≤ B) (h : d ^ 2 ≤ A * B) :
    (x * y + d) ^ 2 ≤ (x * x + A) * (y * y + B) := by
  rcases eq_or_lt_of_le hA with hA0 | hApos
  · have hd : d = 0 := by nlinarith [sq_nonneg d]
    subst hd
    nlinarith [mul_nonneg (mul_self_nonneg x) hB, mul_nonneg (mul_self_nonneg y) hA,
      mul_nonneg hA hB]
  · nlinarith [sq_nonneg (x * d - y * A), mul_nonneg (le_of_lt hApos) (sub_nonneg.2 h),
      mul_nonneg (mul_self_nonneg x) (sub_nonneg.2 h), hApos]

theorem cauchy_schwarz_list (a : List ℝ) :
    ∀ b : List ℝ, (dotProd a b) ^ 2 ≤ sumSq a * sumSq b := by
  induction a with
  | nil =>
    intro b
    simp [dotProd, sumSq]
  | cons x t ih =>
    intro b
    cases b with
    | nil =>
      simp [dotProd, sumSq]
    | cons y u =>
      rw [dotProd_cons, sumSq_cons, sumSq_cons]
      exact cs_step x y (dotProd t u) (sumSq t) (sumSq u)
        (sumSq_nonneg t) (sumSq_nonneg u) (ih u)

/-! ### Evaluating `cosineSimilarity` on finite vectors -/

theorem cosineSimilarity_finite_eval (a b : List ℝ) (hlen : a.length = b.length)
    (hane : a ≠ []) (hA : sumSq a ≠ 0) (hB : sumSq b ≠ 0) :
    cosineSimilarity (a.map JsVal.num) (b.map JsVal.num) =
      .num (dotProd a b / (Real.sqrt (sumSq a) * Real.sqrt (sumSq b))) := by
  have hApos : 0 < sumSq a := lt_of_le_of_ne (sumSq_nonneg a) (Ne.symm hA)
  have hBpos : 0 < sumSq b := lt_of_le_of_ne (sumSq_nonneg b) (Ne.symm hB)
  have hbne : b ≠ [] := by
    intro hb
    subst hb
    rw [List.length_nil, List.length_eq_zero] at hlen
    exact hane hlen
  have hguard : ¬ ((a.map JsVal.num).length = 0 ∨
      (a.map JsVal.num).length ≠ (b.map JsVal.num).length) := by
    simp [hlen, List.length_eq_zero, hane, hbne]
  rw [cosineSimilarity, if_neg hguard, mag_map_num, mag_map_num, dot_map_num]
  rw [if_neg (by simp [JsVal.num.injEq, hA, hB])]
  rw [jsSqrt, if_neg (not_lt.2 (sumSq_nonneg a)), jsSqrt, if_neg (not_lt.2 (sumSq_nonneg b))]
  rw [jsMul_num, jsDiv]
  rw [if_neg (ne_of_gt (mul_pos (Real.sqrt_pos.2 hApos) (Real.sqrt_pos.2 hBpos)))]

/-- C9: for any two non-zero vectors of equal dimension (modelled with
exact real entries), `cosineSimilarity` is symmetric and its value is a
finite number in `[-1, 1]`. -/
theorem cosineSimilarity_symm_bounded (a b : List ℝ) (hlen : a.length = b.length)
    (ha : ∃ x ∈ a, x ≠ 0) (hb : ∃ x ∈ b, x ≠ 0) :
    cosineSimilarity (a.map JsVal.num) (b.map JsVal.num) =
      cosineSimilarity (b.map JsVal.num) (a.map JsVal.num) ∧
    ∃ r : ℝ, cosineSimilarity (a.map JsVal.num) (b.map JsVal.num) = .num r ∧
      -1 ≤ r ∧ r ≤ 1 := by
  obtain ⟨xa, hxa, hxa0⟩ := ha
  obtain ⟨xb, hxb, hxb0⟩ := hb
  have hApos : 0 < sumSq a := sumSq_pos a xa hxa hxa0
  have hBpos : 0 < sumSq b := sumSq_pos b xb hxb hxb0
  have hane : a ≠ [] := by intro h; subst h; simp at hxa
  have hbne : b ≠ [] := by intro h; subst h; simp at hxb
  have hev := cosineSimilarity_finite_eval a b hlen hane (ne_of_gt hApos) (ne_of_gt hBpos)
  have hev' := cosineSimilarity_finite_eval b a hlen.symm hbne (ne_of_gt hBpos) (ne_of_gt hApos)
  constructor
  · rw [hev, hev', dotProd_comm, mul_comm]
  · refine ⟨_, hev, ?_⟩
    have hden : 0 < Real.sqrt (sumSq a) * Real.sqrt (sumSq b) :=
      mul_pos (Real.sqrt_pos.2 hApos) (Real.sqrt_pos.2 hBpos)
    have habs : |dotProd a b| ≤ Real.sqrt (sumSq a) * Real.sqrt (sumSq b) := by
      rw [← Real.sqrt_sq_eq_abs, ← Real.sqrt_mul (sumSq_nonneg a)]
      exact Real.sqrt_le_sqrt (cauchy_schwarz_list a b)
    have hq : |dotProd a b / (Real.sqrt (sumSq a) * Real.sqrt (sumSq b))| ≤ 1 := by
      rw [abs_div, abs_of_pos hden]
      exact (div_le_one hden).2 habs
    exact abs_le.1 hq

/-- Witness for C9 at `a = [1, 0]`, `b = [0, 1]`. -/
theorem cosineSimilarity_symm_bounded_witness :
    ([(1 : ℝ), 0].length = [(0 : ℝ), 1].length ∧
      (∃ x ∈ [(1 : ℝ), 0], x ≠ 0) ∧ (∃ x ∈ [(0 : ℝ), 1], x ≠ 0)) ∧
    ∃ r : ℝ, cosineSimilarity ([(1 : ℝ), 0].map JsVal.num) ([(0 : ℝ), 1].map JsVal.num) = .num r ∧
      -1 ≤ r ∧ r ≤ 1 :=
  ⟨⟨rfl, ⟨1, by simp⟩, ⟨1, by simp⟩⟩,
   (cosineSimilarity_symm_bounded [1, 0] [0, 1] rfl ⟨1, by simp⟩ ⟨1, by simp⟩).2⟩

/-- C10: an empty first vector or a dimension mismatch makes
`cosineSimilarity` return exactly `0` with no error; consequently a stored
record whose embedding dimension differs from the query vector's is scored
`0` — a finite value the filter keeps — rather than rejected. -/
theorem cosineSimilarity_mismatch_zero (a b : List JsVal)
    (h : a.length = 0 ∨ a.length ≠ b.length) :
    cosineSimilarity a b = .num 0 ∧
    jsIsFinite (cosineSimilarity a b) = true ∧
    (∀ (r : StoredChunk) (lines : List JsonLine), r ∈ parseLines lines →
      r.embedding = b → (r, JsVal.num 0) ∈ scoredList lines a) := by
  have h0 : cosineSimilarity a b = .num 0 := by
    rw [cosineSimilarity, if_pos h]
  refine ⟨h0, by rw [h0]; rfl, ?_⟩
  intro r lines hr hemb
  have : (r, cosineSimilarity a r.embedding) ∈ scoredList lines a :=
    List.mem_map.2 ⟨r, hr, rfl⟩
  rwa [hemb, h0] at this

/-- Witness for C10 at `a = [1]`, `b = []` (dimension mismatch). -/
theorem cosineSimilarity_mismatch_zero_witness :
    ([JsVal.num 1].length = 0 ∨ [JsVal.num 1].length ≠ ([] : List JsVal).length) ∧
    cosineSimilarity [JsVal.num 1] [] = .num 0 :=
  ⟨Or.inr (by decide),
   (cosineSimilarity_mismatch_zero [JsVal.num 1] [] (Or.inr (by decide))).1⟩

/-! ### Zero vectors, the finite filter, and search -/

/-- C4, amended: for a stored record whose vector is zero-length or has
zero magnitude, the computed cosine similarity against any query vector is
exactly `0` (never `NaN` or undefined); since `0` is a finite value, such
a record passes the `Number.isFinite` filter (which excludes only
non-finite scores) and so remains eligible for the similarity ranking
rather than being excluded by it. -/
theorem cosineSimilarity_zero_vector (q : List JsVal) (b : List ℝ) (hb : ∀ x ∈ b, x = 0) :
    cosineSimilarity q (b.map JsVal.num) = .num 0 ∧
    jsIsFinite (cosineSimilarity q (b.map JsVal.num)) = true := by
  have hmain : cosineSimilarity q (b.map JsVal.num) = .num 0 := by
    by_cases hguard : q.length = 0 ∨ q.length ≠ (b.map JsVal.num).length
    · rw [cosineSimilarity, if_pos hguard]
    · have hsum : sumSq b = 0 := by
        rw [sumSq]
        apply List.sum_eq_zero
        intro y hy
        obtain ⟨x, hx, hxy⟩ := List.mem_map.1 hy
        rw [← hxy, hb x hx, mul_zero]
      rw [cosineSimilarity, if_neg hguard,
        if_pos (Or.inr (by rw [mag_map_num, hsum]))]
  exact ⟨hmain, by rw [hmain]; rfl⟩

/-- Witness for the amended C4 at query `[1]` against the zero vector
`[0]`. -/
theorem cosineSimilarity_zero_vector_witness :
    (∀ x ∈ [(0 : ℝ)], x = 0) ∧
    cosineSimilarity [JsVal.num 1] ([(0 : ℝ)].map JsVal.num) = .num 0 :=
  ⟨by simp, (cosineSimilarity_zero_vector [JsVal.num 1] [(0 : ℝ)] (by simp)).1⟩

/-- C4, counterexample: a stored record with the zero vector `[0]` gets
similarity exactly `0` against the query `[1]` — but `0` is finite, so the
record passes the `Number.isFinite` filter and appears in the
similarity-ranked list itself (not merely in the fallback).  This refutes
the claim that such a record is excluded from the similarity-ranked
results by the finite-value filter. -/
theorem zero_vector_not_excluded :
    cosineSimilarity [JsVal.num 1] zeroRec.embedding = JsVal.num 0 ∧
    rankedList [JsonLine.record zeroRec] [JsVal.num 1] 5 = [zeroRec] := by
  have hmagB : jsSum (List.zipWith jsMul [JsVal.num 0] [JsVal.num 0]) = JsVal.num 0 := by
    show JsVal.num (0 + 0 * 0) = JsVal.num 0
    norm_num
  have hcos : cosineSimilarity [JsVal.num 1] [JsVal.num 0] = JsVal.num 0 := by
    rw [cosineSimilarity, if_neg (by simp), if_pos (Or.inr hmagB)]
  refine ⟨hcos, ?_⟩
  have hscored : scoredList [JsonLine.record zeroRec] [JsVal.num 1] =
      [(zeroRec, JsVal.num 0)] := by
    simp only [scoredList, parseLines, parseLine, List.filterMap_cons, List.filterMap_nil,
      List.map_cons, List.map_nil]
    rw [show zeroRec.embedding = [JsVal.num 0] from rfl, hcos]
  rw [rankedList, hscored]
  simp [jsIsFinite, List.mergeSort_singleton]

/-- C5: whenever the store has at least one parseable record but the
finite-similarity-filtered ranked list is empty, `searchChunks` returns
the first `k` records in file order rather than an empty result. -/
theorem search_degenerate_fallback (lines : List JsonLine) (q : List JsVal) (k : Nat)
    (hrec : parseLines lines ≠ []) (hrank : rankedList lines q k = []) :
    searchChunks (some lines) q k = (parseLines lines).take k := by
  have hlinesne : lines.isEmpty = false := by
    cases lines with
    | nil => exact absurd rfl hrec
    | cons a t => rfl
  have hcast : searchChunks (some lines) q k =
      (if lines.isEmpty then []
       else if (rankedList lines q k).length ≠ 0 then rankedList lines q k
       else (parseLines lines).take k) := rfl
  rw [hcast, hlinesne, hrank]
  simp

/-- Witness for C5: a store with one record whose embedding entry is
`Infinity` and the query `[Infinity]`: the similarity is
`Infinity / Infinity = NaN`, the finite filter empties the ranked list,
and the fallback returns the record anyway. -/
theorem search_degenerate_fallback_witness :
    (parseLines [JsonLine.record infRec] ≠ [] ∧
     rankedList [JsonLine.record infRec] [JsVal.pinf] 3 = []) ∧
    searchChunks (some [JsonLine.record infRec]) [JsVal.pinf] 3 = [infRec] := by
  have h1 : parseLines [JsonLine.record infRec] ≠ [] := by simp [parseLines, parseLine]
  have hcos : cosineSimilarity [JsVal.pinf] [JsVal.pinf] = JsVal.nan := by
    rw [cosineSimilarity, if_neg (by simp), if_neg (by simp [jsSum, jsMul, jsAdd])]
    rfl
  have h2 : rankedList [JsonLine.record infRec] [JsVal.pinf] 3 = [] := by
    have hscored : scoredList [JsonLine.record infRec] [JsVal.pinf] =
        [(infRec, JsVal.nan)] := by
      simp only [scoredList, parseLines, parseLine, List.filterMap_cons, List.filterMap_nil,
        List.map_cons, List.map_nil]
      rw [show infRec.embedding = [JsVal.pinf] from rfl, hcos]
    rw [rankedList, hscored]
    simp [jsIsFinite]
  refine ⟨⟨h1, h2⟩, ?_⟩
  rw [search_degenerate_fallback [JsonLine.record infRec] [JsVal.pinf] 3 h1 h2]
  rfl

/-- C6: `searchChunks` never returns more than `k` records, and an empty
store — file absent, file empty, or file containing no record lines at all
— yields the empty list (the function is total: no error is raised). -/
theorem search_at_most_k (store : Option (List JsonLine)) (q : List JsVal) (k : Nat) :
    (searchChunks store q k).length ≤ k ∧
    searchChunks none q k = [] ∧
    searchChunks (some []) q k = [] ∧
    (∀ lines : List JsonLine, parseLines lines = [] → searchChunks (some lines) q k = []) := by
  refine ⟨?_, rfl, rfl, ?_⟩
  · cases store with
    | none => simp [searchChunks]
    | some lines =>
      have hcast : searchChunks (some lines) q k =
          (if lines.isEmpty then []
           else if (rankedList lines q k).length ≠ 0 then rankedList lines q k
           else (parseLines lines).take k) := rfl
      rw [hcast]
      split
      · simp
      · split
        · rw [rankedList, List.length_map]
          exact List.length_take_le _ _
        · exact List.length_take_le _ _
  · intro lines hpl
    have hrl : rankedList lines q k = [] := by
      simp [rankedList, scoredList, hpl]
    have hcast : searchChunks (some lines) q k =
        (if lines.isEmpty then []
         else if (rankedList lines q k).length ≠ 0 then rankedList lines q k
         else (parseLines lines).take k) := rfl
    rw [hcast, hrl, hpl]
    simp

/-- Witness for C6 at a store whose single line is unparseable. -/
theorem search_at_most_k_witness :
    parseLines [JsonLine.invalid] = [] ∧
    searchChunks (some [JsonLine.invalid]) [JsVal.num 1] 2 = [] :=
  ⟨rfl, (search_at_most_k (some [JsonLine.invalid]) [JsVal.num 1] 2).2.2.2
    [JsonLine.invalid] rfl⟩

theorem parseLines_filter (lines : List JsonLine) :
    parseLines (lines.filter isRecordLine) = parseLines lines := by
  induction lines with
  | nil => rfl
  | cons a t ih =>
    cases a with
    | record chunk =>
      simp only [parseLines, List.filter_cons, isRecordLine, if_pos,
        List.filterMap_cons, parseLine] at *
      rw [ih]
    | invalid =>
      simp only [parseLines, List.filter_cons, isRecordLine, List.filterMap_cons, parseLine,
        Bool.false_eq_true, if_false] at *
      exact ih
    | noEmbedding =>
      simp only [parseLines, List.filter_cons, isRecordLine, List.filterMap_cons, parseLine,
        Bool.false_eq_true, if_false] at *
      exact ih

/-- C7: a line that fails to parse or lacks an embedding array is silently
skipped: inserting any such corrupt line anywhere in the store leaves the
search result unchanged, and in general the search result over any store
equals the result over the store with all non-record lines removed — so
any number of corrupt lines never alters the handling of the well-formed
lines (and search, being a total function, raises no error). -/
theorem search_skips_corrupt_line (lines l1 l2 : List JsonLine) (c : JsonLine)
    (q : List JsVal) (k : Nat) (hc : isRecordLine c = false) :
    searchChunks (some (l1 ++ c :: l2)) q k = searchChunks (some (l1 ++ l2)) q k ∧
    searchChunks (some lines) q k = searchChunks (some (lines.filter isRecordLine)) q k := by
  constructor
  · have hcnone : parseLine c = none := by
      cases c
      · rfl
      · rfl
      · simp [isRecordLine] at hc
    have hparse : parseLines (l1 ++ c :: l2) = parseLines (l1 ++ l2) := by
      simp only [parseLines, List.filterMap_append, List.filterMap_cons, hcnone]
    have hranked : rankedList (l1 ++ c :: l2) q k = rankedList (l1 ++ l2) q k := by
      simp only [rankedList, scoredList, hparse]
    have hcast1 : searchChunks (some (l1 ++ c :: l2)) q k =
        (if (l1 ++ c :: l2).isEmpty then []
         else if (rankedList (l1 ++ c :: l2) q k).length ≠ 0 then rankedList (l1 ++ c :: l2) q k
         else (parseLines (l1 ++ c :: l2)).take k) := rfl
    have hcast2 : searchChunks (some (l1 ++ l2)) q k =
        (if (l1 ++ l2).isEmpty then []
         else if (rankedList (l1 ++ l2) q k).length ≠ 0 then rankedList (l1 ++ l2) q k
         else (parseLines (l1 ++ l2)).take k) := rfl
    have hne : (l1 ++ c :: l2).isEmpty = false := by
      cases l1 <;> rfl
    rw [hcast1, hcast2, hne, hparse, hranked]
    by_cases h12 : (l1 ++ l2).isEmpty
    · have heq : l1 ++ l2 = ([] : List JsonLine) := List.isEmpty_iff.1 h12
      rw [heq]
      have hr : rankedList [] q k = [] := by
        simp [rankedList, scoredList, parseLines]
      rw [hr]
      simp [parseLines]
    · have h12f : (l1 ++ l2).isEmpty = false := by
        cases hb : (l1 ++ l2).isEmpty
        · rfl
        · exact absurd hb h12
      rw [h12f]
  · have hparse := parseLines_filter lines
    have hranked : rankedList (lines.filter isRecordLine) q k = rankedList lines q k := by
      simp only [rankedList, scoredList, hparse]
    have hcastL : searchChunks (some lines) q k =
        (if lines.isEmpty then []
         else if (rankedList lines q k).length ≠ 0 then rankedList lines q k
         else (parseLines lines).take k) := rfl
    have hcastR : searchChunks (some (lines.filter isRecordLine)) q k =
        (if (lines.filter isRecordLine).isEmpty then []
         else if (rankedList (lines.filter isRecordLine) q k).length ≠ 0 then
           rankedList (lines.filter isRecordLine) q k
         else (parseLines (lines.filter isRecordLine)).take k) := rfl
    rw [hcastL, hcastR, hparse, hranked]
    by_cases hf : (lines.filter isRecordLine).isEmpty
    · have hpl : parseLines lines = [] := by
        rw [← hparse, List.isEmpty_iff.1 hf]
        rfl
      have hrl : rankedList lines q k = [] := by
        simp [rankedList, scoredList, hpl]
      rw [hrl, hpl]
      simp
    · have hff : (lines.filter isRecordLine).isEmpty = false := by
        cases hb : (lines.filter isRecordLine).isEmpty
        · rfl
        · exact absurd hb hf
      have hlf : lines.isEmpty = false := by
        cases lines with
        | nil => exact absurd rfl hf
        | cons a t => rfl
      rw [hff, hlf]

/-- Witness for C7: prepending one unparseable line to a one-record store
does not change the search result, and filtering that store's non-record
lines away does not either. -/
theorem search_skips_corrupt_line_witness :
    isRecordLine JsonLine.invalid = false ∧
    searchChunks (some ([] ++ JsonLine.invalid :: [JsonLine.record zeroRec])) [JsVal.num 1] 1 =
      searchChunks (some ([] ++ [JsonLine.record zeroRec])) [JsVal.num 1] 1 ∧
    searchChunks (some [JsonLine.invalid, JsonLine.record zeroRec]) [JsVal.num 1] 1 =
      searchChunks
        (some ([JsonLine.invalid, JsonLine.record zeroRec].filter isRecordLine))
        [JsVal.num 1] 1 :=
  ⟨rfl,
   (search_skips_corrupt_line [JsonLine.invalid, JsonLine.record zeroRec]
      [] [JsonLine.record zeroRec] JsonLine.invalid [JsVal.num 1] 1 rfl).1,
   (search_skips_corrupt_line [JsonLine.invalid, JsonLine.record zeroRec]
      [] [JsonLine.record zeroRec] JsonLine.invalid [JsVal.num 1] 1 rfl).2⟩

/-! ### Provider dispatch -/

/-- C8: for every provider whose catalog entry requires a credential,
dispatching with a missing (or empty, hence falsy) credential fails —
`Except.error`, i.e. before any `ProviderCall` network request is
constructed — with an error message that contains that provider's name;
for a provider that does not require a credential, dispatch proceeds to a
network call without this check, whatever the credential. -/
theorem dispatch_credential_check (p : ProviderName) (model prompt : String)
    (apiKey : Option String) :
    ((PROVIDERS p).needsApiKey = true → isFalsyKey apiKey = true →
      ∃ msg : String, dispatchToProvider p model prompt apiKey = .error msg ∧
        (providerKeyLabel p).data <:+: msg.data) ∧
    ((PROVIDERS p).needsApiKey = false →
      ∃ call : ProviderCall, dispatchToProvider p model prompt apiKey = .ok call) := by
  cases p with
  | ollama =>
    refine ⟨fun hreq _ => absurd hreq (by simp [PROVIDERS]), fun _ => ?_⟩
    exact ⟨.ollamaGenerate model prompt, rfl⟩
  | openai =>
    refine ⟨fun _ hkey => ?_, fun hreq => absurd hreq (by simp [PROVIDERS])⟩
    refine ⟨"API key required for OpenAI.", ?_, by decide⟩
    rw [dispatchToProvider, if_pos hkey]
  | anthropic =>
    refine ⟨fun _ hkey => ?_, fun hreq => absurd hreq (by simp [PROVIDERS])⟩
    refine ⟨"API key required for Anthropic.", ?_, by decide⟩
    rw [dispatchToProvider, if_pos hkey]
  | google =>
    refine ⟨fun _ hkey => ?_, fun hreq => absurd hreq (by simp [PROVIDERS])⟩
    refine ⟨"API key required for Google Gemini.", ?_, by decide⟩
    rw [dispatchToProvider, if_pos hkey]

/-- Witness for C8: OpenAI with no key configured errors with a message
naming OpenAI; Ollama (no credential required) dispatches with no key. -/
theorem dispatch_credential_check_witness :
    ((PROVIDERS ProviderName.openai).needsApiKey = true ∧
      isFalsyKey none = true ∧
      ∃ msg : String,
        dispatchToProvider ProviderName.openai "gpt-5" "prompt" none = .error msg ∧
        (providerKeyLabel ProviderName.openai).data <:+: msg.data) ∧
    ((PROVIDERS ProviderName.ollama).needsApiKey = false ∧
      ∃ call : ProviderCall,
        dispatchToProvider ProviderName.ollama "qwen3:1.7b" "prompt" none = .ok call) :=
  ⟨⟨rfl, rfl, (dispatch_credential_check ProviderName.openai "gpt-5" "prompt" none).1 rfl rfl⟩,
   ⟨rfl, (dispatch_credential_check ProviderName.ollama "qwen3:1.7b" "prompt" none).2 rfl⟩⟩
